import Mathlib

/-!
Shallow embedding of `lfsr_math.py` (class `LFSR_Math`) from the
`pshatov/lfsr_template` repository, together with theorems checking the
natural-language specification against this embedding.

Conventions:
* numpy row vectors of width `w` are `Matrix (Fin 1) (Fin w) ℕ`;
  numpy `w × w` matrices are `Matrix (Fin w) (Fin w) ℕ`.
* Machine arithmetic is `ℕ` (Python ints are unbounded; all values used by
  the repository are non-negative), with `% 2` written explicitly where the
  source reduces modulo 2.
* Functions that can raise Python exceptions return `Except PyError _`.
* numpy's in-place mutation is modelled functionally here (each operation
  returns the resulting array value); a separate store-passing embedding at
  the end of the file tracks the actual in-place writes for the frame claims.
-/

/-- `lfsr_enum.FeedbackModeEnum`. -/
inductive FeedbackModeEnum where
  | Fibonacci : FeedbackModeEnum
  | Galois : FeedbackModeEnum
deriving DecidableEq, Repr

/-- Python exceptions that the embedded code can raise. -/
inductive PyError where
  | notImplementedError : PyError
  | runtimeError : PyError
deriving DecidableEq, Repr

namespace LFSR_Math

/-- `LFSR_Math.period`: `2 ** width - 1`. -/
def period (width : ℕ) : ℕ := 2 ^ width - 1

/-- `LFSR_Math.get_int_bit`: `(value & (1 << index)) >> index`. -/
def get_int_bit (value index : ℕ) : ℕ := (value &&& (1 <<< index)) >>> index

/-- `LFSR_Math._element_gf2` applied at one position: `mtx[row][col] %= 2`.
The in-place write is modelled by returning the updated array value. -/
def element_gf2 {m n : ℕ} (mtx : Matrix (Fin m) (Fin n) ℕ) (row col : ℕ) :
    Matrix (Fin m) (Fin n) ℕ :=
  fun i j => if (i : ℕ) = row ∧ (j : ℕ) = col then mtx i j % 2 else mtx i j

/-- `LFSR_Math.column_gf2`: reduces entries `(row, col)` for `row < width`
modulo 2 (the loop `for row in range(width): mtx[row][col] %= 2`). -/
def column_gf2 {m n : ℕ} (mtx : Matrix (Fin m) (Fin n) ℕ) (width col : ℕ) :
    Matrix (Fin m) (Fin n) ℕ :=
  fun i j => if (i : ℕ) < width ∧ (j : ℕ) = col then mtx i j % 2 else mtx i j

/-- `LFSR_Math.matrix_gf2`: `column_gf2` for every `col < width`. -/
def matrix_gf2 {m n : ℕ} (mtx : Matrix (Fin m) (Fin n) ℕ) (width : ℕ) :
    Matrix (Fin m) (Fin n) ℕ :=
  fun i j => if (i : ℕ) < width ∧ (j : ℕ) < width then mtx i j % 2 else mtx i j

/-- One iteration of the loop body of `LFSR_Math.matrix_exponentiate_gf2`:
on bit `i` of `pwr`, conditionally multiply accumulator by base (reducing
mod 2), then square the base (reducing mod 2). State is `(result, base)`. -/
def expStep {w : ℕ} (pwr : ℕ)
    (rb : Matrix (Fin w) (Fin w) ℕ × Matrix (Fin w) (Fin w) ℕ) (i : ℕ) :
    Matrix (Fin w) (Fin w) ℕ × Matrix (Fin w) (Fin w) ℕ :=
  let result := if get_int_bit pwr i > 0 then matrix_gf2 (rb.1 * rb.2) w else rb.1
  (result, matrix_gf2 (rb.2 * rb.2) w)

/-- `LFSR_Math.matrix_exponentiate_gf2`: square-and-multiply over the bits
`0, …, width-1` of `pwr`, starting from `numpy.identity(width)` with
`base = mtx`.  The `width` parameter of the Python function is the
dimension `w` of the matrix. -/
def matrix_exponentiate_gf2 {w : ℕ} (mtx : Matrix (Fin w) (Fin w) ℕ)
    (pwr : ℕ) : Matrix (Fin w) (Fin w) ℕ :=
  ((List.range w).foldl (expStep pwr) (1, mtx)).1

/-- numpy element write `mtx[r][c] = x` (out-of-range indices leave the
array unchanged; the source only writes in range). -/
def writeEntry {m n : ℕ} (mtx : Matrix (Fin m) (Fin n) ℕ) (r c x : ℕ) :
    Matrix (Fin m) (Fin n) ℕ :=
  fun i j => if (i : ℕ) = r ∧ (j : ℕ) = c then x else mtx i j

/-- The transition-matrix construction inside
`LFSR_Math.fast_forward_poly_fibonacci`:
`mtx = numpy.zeros([width, width])`; `for i in range(0, width - 1): mtx[i + 1][i] = 1`;
`mtx[0] = poly[0]`. -/
def companionBuild {w : ℕ} (poly : Matrix (Fin 1) (Fin w) ℕ) :
    Matrix (Fin w) (Fin w) ℕ :=
  let m0 := (List.range (w - 1)).foldl (fun m i => writeEntry m (i + 1) i 1)
    (0 : Matrix (Fin w) (Fin w) ℕ)
  fun i j => if (i : ℕ) = 0 then poly 0 j else m0 i j

/-- `LFSR_Math.fast_forward_poly_fibonacci`. -/
def fast_forward_poly_fibonacci {w : ℕ}
    (poly init : Matrix (Fin 1) (Fin w) ℕ) (steps : ℕ) :
    Matrix (Fin 1) (Fin w) ℕ :=
  let init_t := init.transpose
  let mtx := companionBuild poly
  let mtx_pow := matrix_exponentiate_gf2 mtx steps
  let last := column_gf2 (mtx_pow * init_t) w 0
  last.transpose

/-- `LFSR_Math.fast_forward_poly_galois`: `raise NotImplementedError`. -/
def fast_forward_poly_galois {w : ℕ}
    (_poly _init : Matrix (Fin 1) (Fin w) ℕ) (_steps : ℕ) :
    Except PyError (Matrix (Fin 1) (Fin w) ℕ) :=
  .error .notImplementedError

/-- `LFSR_Math.int2row`: `ret = numpy.zeros([1, width])`; then
`ret[0][index] = get_int_bit(value, index)` for each `index < width`. -/
def int2row (value : ℕ) (w : ℕ) : Matrix (Fin 1) (Fin w) ℕ :=
  (List.range w).foldl
    (fun ret index => writeEntry ret 0 index (get_int_bit value index))
    (0 : Matrix (Fin 1) (Fin w) ℕ)

/-- `LFSR_Math.validate_init_value_int`.  Python's `int` is modelled as `ℤ`. -/
def validate_init_value_int (feedback_mode : FeedbackModeEnum)
    (init_value : ℤ) (width : ℕ) : Bool × String :=
  if feedback_mode = FeedbackModeEnum.Fibonacci ∧ init_value = 0 then
    (false, "All-zeroes state is prohibited in Fibonacci mode!")
  else if feedback_mode = FeedbackModeEnum.Galois ∧ init_value = 2 ^ width - 1 then
    (false, "All-ones state is prohibited in Galois mode!")
  else
    (true, "")

/-- `LFSR_Math.validate_poly_numpy`.  `numpy.sum(poly[0])` is
`∑ j, poly 0 j`; `poly[0][width - 1]` needs `width - 1` in range, which
holds for every call in the repository (`width ≥ 3`). -/
def validate_poly_numpy {w : ℕ} (poly : Matrix (Fin 1) (Fin w) ℕ) :
    Bool × String :=
  if (if h : w - 1 < w then poly 0 ⟨w - 1, h⟩ else 0) = 0 then
    (false, "Polynomial does not have nonzero coefficient for the largest power of x")
  else if (∑ j, poly 0 j) < 2 then
    (false, "Polynomial must have at least two feedback taps")
  else if (∑ j, poly 0 j) % 2 > 0 then
    (false, "Polynomial must have an even number of feedback taps")
  else
    (true, "")

/-- `LFSR_Math.fast_forward_poly_wrapper`.  The trailing
`else: raise RuntimeError` branch is unreachable once the mode is one of
the two enum members, which the `FeedbackModeEnum` type makes exhaustive. -/
def fast_forward_poly_wrapper {w : ℕ} (feedback_mode : FeedbackModeEnum)
    (poly : Matrix (Fin 1) (Fin w) ℕ) (init_value : Matrix (Fin 1) (Fin w) ℕ)
    (count : ℕ) : Except PyError (Matrix (Fin 1) (Fin w) ℕ) :=
  match feedback_mode with
  | .Fibonacci => .ok (fast_forward_poly_fibonacci poly init_value count)
  | .Galois => fast_forward_poly_galois poly init_value count

/-- Model of `sympy.ntheory.is_mersenne_prime`: `n` is a Mersenne prime,
i.e. `n = 2 ^ k - 1` for some `k` and `n` is prime (primality stated by
trial division so that the definition evaluates). -/
def is_mersenne_prime (n : ℕ) : Bool :=
  decide (∃ k < n + 2, n + 1 = 2 ^ k) &&
    decide (2 ≤ n ∧ ∀ m < n, 2 ≤ m → ¬ m ∣ n)

/-- Model of `sympy.divisors`: the sorted list of positive divisors of `n`. -/
def sympy_divisors (n : ℕ) : List ℕ :=
  (List.range (n + 1)).filter fun d => decide (0 < d ∧ d ∣ n)

/-- The sub-period loop of `LFSR_Math.check_poly_max_length`:
iterates over the divisor list accumulating the diagnostic message,
returning `(False, msg)` on the first sub-period hit and `(True, "")` if
the loop runs to completion. -/
def subPeriodLoop {w : ℕ} (feedback_mode : FeedbackModeEnum)
    (poly init_value : Matrix (Fin 1) (Fin w) ℕ) :
    List ℕ → String → Except PyError (Bool × String)
  | [], _msg => .ok (true, "")
  | d :: rest, msg =>
    let msg := msg ++ "  Checking sub-period of " ++ toString d
    match fast_forward_poly_wrapper feedback_mode poly init_value d with
    | .error e => .error e
    | .ok last =>
      if last = init_value then
        .ok (false, msg ++ "    Value after sub-period matches initial value, not max length")
      else
        subPeriodLoop feedback_mode poly init_value rest
          (msg ++ "    Value after sub-period doesn't match initial value (OK)")

/-- `LFSR_Math.check_poly_max_length`.  On the success path the source
returns `(True, "")`, discarding the accumulated message. -/
def check_poly_max_length {w : ℕ} (feedback_mode : FeedbackModeEnum)
    (poly : Matrix (Fin 1) (Fin w) ℕ) (init_value : Matrix (Fin 1) (Fin w) ℕ) :
    Except PyError (Bool × String) :=
  let p := period w
  match fast_forward_poly_wrapper feedback_mode poly init_value p with
  | .error e => .error e
  | .ok last =>
    if ¬ (last = init_value) then
      .ok (false, "Value after full period doesn't match initial value, not max length")
    else
      let msg := "Value after full period matches initial value (OK)"
      if is_mersenne_prime p then
        -- msg += "\nPeriod is prime, no further checks needed"; return True, ""
        .ok (true, "")
      else
        let divisors := ((sympy_divisors p).drop 1).dropLast
        subPeriodLoop feedback_mode poly init_value divisors
          (msg ++ "\nChecking sub-periods...")

end LFSR_Math

/-! ### The GF(2) view: entrywise cast of `ℕ` matrices to `ZMod 2` -/

namespace LFSR_Math

/-- Entrywise cast of an integer matrix to `ZMod 2`. -/
def toZ {m n : ℕ} (A : Matrix (Fin m) (Fin n) ℕ) : Matrix (Fin m) (Fin n) (ZMod 2) :=
  A.map (Nat.cast)

theorem toZ_apply {m n : ℕ} (A : Matrix (Fin m) (Fin n) ℕ) (i : Fin m) (j : Fin n) :
    toZ A i j = (A i j : ZMod 2) := rfl

theorem toZ_mul {l m n : ℕ} (A : Matrix (Fin l) (Fin m) ℕ)
    (B : Matrix (Fin m) (Fin n) ℕ) : toZ (A * B) = toZ A * toZ B := by
  have h := Matrix.map_mul (L := A) (M := B) (f := Nat.castRingHom (ZMod 2))
  simpa [toZ, Nat.castRingHom] using h

theorem toZ_one {w : ℕ} : toZ (1 : Matrix (Fin w) (Fin w) ℕ) = 1 :=
  Matrix.map_one _ (by simp) (by simp)

theorem toZ_pow {w : ℕ} (A : Matrix (Fin w) (Fin w) ℕ) (k : ℕ) :
    toZ (A ^ k) = toZ A ^ k := by
  induction k with
  | zero => simpa using toZ_one
  | succ k ih => rw [pow_succ, toZ_mul, ih, pow_succ]

theorem toZ_matrix_gf2 {m n : ℕ} (A : Matrix (Fin m) (Fin n) ℕ) (width : ℕ) :
    toZ (matrix_gf2 A width) = toZ A := by
  ext i j
  simp only [toZ_apply, matrix_gf2]
  split
  · exact ZMod.natCast_mod _ 2
  · rfl

theorem toZ_column_gf2 {m n : ℕ} (A : Matrix (Fin m) (Fin n) ℕ) (width col : ℕ) :
    toZ (column_gf2 A width col) = toZ A := by
  ext i j
  simp only [toZ_apply, column_gf2]
  split
  · exact ZMod.natCast_mod _ 2
  · rfl

theorem cast_zmod2_inj {a b : ℕ} (ha : a ≤ 1) (hb : b ≤ 1)
    (h : (a : ZMod 2) = b) : a = b := by
  interval_cases a <;> interval_cases b <;>
    first
    | rfl
    | exact absurd h (by decide)

theorem toZ_inj_of_bool {m n : ℕ} {A B : Matrix (Fin m) (Fin n) ℕ}
    (hA : ∀ i j, A i j ≤ 1) (hB : ∀ i j, B i j ≤ 1) (h : toZ A = toZ B) :
    A = B := by
  ext i j
  have hz : toZ A i j = toZ B i j := by rw [h]
  exact cast_zmod2_inj (hA i j) (hB i j) hz

/-! ### `get_int_bit` as a standard bit extraction -/

theorem get_int_bit_eq_div_mod (v i : ℕ) : get_int_bit v i = v / 2 ^ i % 2 := by
  have h2 : (0 : ℕ) < 2 ^ i := Nat.pos_pow_of_pos i (by norm_num)
  have hb : get_int_bit v i = (v.testBit i).toNat := by
    unfold get_int_bit
    rw [Nat.shiftLeft_eq, one_mul, Nat.and_two_pow, Nat.shiftRight_eq_div_pow,
      Nat.mul_div_cancel _ h2]
  rw [hb, Nat.testBit_to_div_mod]
  have hlt : v / 2 ^ i % 2 < 2 := Nat.mod_lt _ (by norm_num)
  by_cases h : v / 2 ^ i % 2 = 1
  · simp [h]
  · simp [h]
    omega

theorem get_int_bit_le_one (v i : ℕ) : get_int_bit v i ≤ 1 := by
  rw [get_int_bit_eq_div_mod]
  have := Nat.mod_lt (v / 2 ^ i) (show (0:ℕ) < 2 by norm_num)
  omega

/-! ### The square-and-multiply loop of `matrix_exponentiate_gf2` -/

theorem matrix_gf2_sq_apply {w : ℕ} (A : Matrix (Fin w) (Fin w) ℕ)
    (i j : Fin w) : matrix_gf2 A w i j = A i j % 2 := by
  simp [matrix_gf2, i.isLt, j.isLt]

theorem expFold_toZ {w : ℕ} (mtx : Matrix (Fin w) (Fin w) ℕ) (pwr : ℕ)
    (m : ℕ) :
    toZ (((List.range m).foldl (expStep pwr) (1, mtx)).1)
        = toZ mtx ^ (pwr % 2 ^ m)
      ∧ toZ (((List.range m).foldl (expStep pwr) (1, mtx)).2)
        = toZ mtx ^ (2 ^ m) := by
  induction m with
  | zero =>
    simp [toZ_one, Nat.mod_one]
  | succ m ih =>
    rw [List.range_succ, List.foldl_concat]
    obtain ⟨ih1, ih2⟩ := ih
    have hbit : get_int_bit pwr m = pwr / 2 ^ m % 2 := get_int_bit_eq_div_mod pwr m
    have hmod : pwr % 2 ^ (m + 1) = pwr % 2 ^ m + 2 ^ m * (pwr / 2 ^ m % 2) :=
      Nat.mod_pow_succ
    constructor
    · show toZ (if get_int_bit pwr m > 0 then _ else _) = _
      by_cases h : get_int_bit pwr m > 0
      · have h1 : pwr / 2 ^ m % 2 = 1 := by
          have := Nat.mod_lt (pwr / 2 ^ m) (show (0:ℕ) < 2 by norm_num)
          omega
        rw [if_pos h, toZ_matrix_gf2, toZ_mul, ih1, ih2, hmod, h1, mul_one,
          pow_add]
      · have h0 : pwr / 2 ^ m % 2 = 0 := by omega
        rw [if_neg h, ih1, hmod, h0, mul_zero, add_zero]
    · show toZ (matrix_gf2 (_ * _) w) = _
      rw [toZ_matrix_gf2, toZ_mul, ih2, ← pow_add]
      congr 1
      rw [pow_succ]
      omega

end LFSR_Math

namespace LFSR_Math

theorem matrix_exponentiate_gf2_toZ {w : ℕ} (mtx : Matrix (Fin w) (Fin w) ℕ)
    (pwr : ℕ) :
    toZ (matrix_exponentiate_gf2 mtx pwr) = toZ mtx ^ (pwr % 2 ^ w) :=
  (expFold_toZ mtx pwr w).1

theorem expFold_fst_bool {w : ℕ} (pwr : ℕ) (L : List ℕ)
    (st : Matrix (Fin w) (Fin w) ℕ × Matrix (Fin w) (Fin w) ℕ)
    (hst : ∀ i j, st.1 i j ≤ 1) :
    ∀ i j, (L.foldl (expStep pwr) st).1 i j ≤ 1 := by
  induction L generalizing st with
  | nil => exact hst
  | cons a L ih =>
    refine ih _ ?_
    intro i j
    show (if get_int_bit pwr a > 0 then _ else st.1) i j ≤ 1
    split
    · rw [matrix_gf2_sq_apply]
      omega
    · exact hst i j

theorem matrix_exponentiate_gf2_bool {w : ℕ} (mtx : Matrix (Fin w) (Fin w) ℕ)
    (pwr : ℕ) : ∀ i j, matrix_exponentiate_gf2 mtx pwr i j ≤ 1 := by
  refine expFold_fst_bool pwr (List.range w) (1, mtx) ?_
  intro i j
  show (1 : Matrix (Fin w) (Fin w) ℕ) i j ≤ 1
  rw [Matrix.one_apply]
  split <;> omega

theorem fast_forward_poly_fibonacci_bool {w : ℕ}
    (poly init : Matrix (Fin 1) (Fin w) ℕ) (steps : ℕ) :
    ∀ i j, fast_forward_poly_fibonacci poly init steps i j ≤ 1 := by
  intro i j
  show column_gf2 _ w 0 j i ≤ 1
  unfold column_gf2
  have hi : (i : ℕ) = 0 := by omega
  rw [if_pos ⟨j.isLt, hi⟩]
  omega

end LFSR_Math

namespace LFSR_Math

theorem writeEntry_apply {m n : ℕ} (mtx : Matrix (Fin m) (Fin n) ℕ)
    (r c x : ℕ) (i : Fin m) (j : Fin n) :
    writeEntry mtx r c x i j
      = if (i : ℕ) = r ∧ (j : ℕ) = c then x else mtx i j := rfl

theorem companionFold_apply {w : ℕ} (m : ℕ) (i j : Fin w) :
    ((List.range m).foldl (fun mt k => writeEntry mt (k + 1) k 1)
        (0 : Matrix (Fin w) (Fin w) ℕ)) i j
      = if (i : ℕ) = (j : ℕ) + 1 ∧ (j : ℕ) < m then 1 else 0 := by
  induction m with
  | zero => simp
  | succ m ih =>
    rw [List.range_succ, List.foldl_concat]
    show writeEntry _ (m + 1) m 1 i j = _
    rw [writeEntry_apply, ih]
    split_ifs <;> omega

theorem companionBuild_apply {w : ℕ} (poly : Matrix (Fin 1) (Fin w) ℕ)
    (i j : Fin w) :
    companionBuild poly i j
      = if (i : ℕ) = 0 then poly 0 j
        else if (i : ℕ) = (j : ℕ) + 1 then 1 else 0 := by
  show (if (i : ℕ) = 0 then poly 0 j else
      ((List.range (w - 1)).foldl (fun mt k => writeEntry mt (k + 1) k 1)
        (0 : Matrix (Fin w) (Fin w) ℕ)) i j) = _
  by_cases h : (i : ℕ) = 0
  · rw [if_pos h, if_pos h]
  · rw [if_neg h, if_neg h, companionFold_apply]
    have hi := i.isLt
    split_ifs <;> omega

theorem fast_forward_toZ {w : ℕ} (poly init : Matrix (Fin 1) (Fin w) ℕ)
    (steps : ℕ) :
    toZ (fast_forward_poly_fibonacci poly init steps).transpose
      = toZ (companionBuild poly) ^ (steps % 2 ^ w) * toZ init.transpose := by
  show toZ ((column_gf2 (matrix_exponentiate_gf2 (companionBuild poly) steps
      * init.transpose) w 0).transpose.transpose) = _
  rw [Matrix.transpose_transpose, toZ_column_gf2, toZ_mul,
    matrix_exponentiate_gf2_toZ]

theorem fast_forward_eq_iff {w : ℕ} {poly init : Matrix (Fin 1) (Fin w) ℕ}
    (hib : ∀ i j, init i j ≤ 1) (steps : ℕ) :
    fast_forward_poly_fibonacci poly init steps = init ↔
      toZ (companionBuild poly) ^ (steps % 2 ^ w) * toZ init.transpose
        = toZ init.transpose := by
  constructor
  · intro h
    rw [← fast_forward_toZ, h]
  · intro h
    have hz : toZ (fast_forward_poly_fibonacci poly init steps).transpose
        = toZ init.transpose := by
      rw [fast_forward_toZ, h]
    have hbt : ∀ (i : Fin w) (j : Fin 1),
        (fast_forward_poly_fibonacci poly init steps).transpose i j ≤ 1 :=
      fun i j => fast_forward_poly_fibonacci_bool poly init steps j i
    have hbi : ∀ (i : Fin w) (j : Fin 1), init.transpose i j ≤ 1 :=
      fun i j => hib j i
    exact Matrix.transpose_inj.mp (toZ_inj_of_bool hbt hbi hz)

end LFSR_Math

namespace LFSR_Math

theorem int2rowFold_apply (v : ℕ) {w : ℕ} (m : ℕ) (i : Fin 1) (j : Fin w) :
    ((List.range m).foldl
        (fun ret index => writeEntry ret 0 index (get_int_bit v index))
        (0 : Matrix (Fin 1) (Fin w) ℕ)) i j
      = if (j : ℕ) < m then get_int_bit v j else 0 := by
  induction m with
  | zero => simp
  | succ m ih =>
    rw [List.range_succ, List.foldl_concat]
    show writeEntry _ 0 m _ i j = _
    rw [writeEntry_apply, ih]
    by_cases hj : (j : ℕ) = m
    · have hi : (i : ℕ) = 0 := by omega
      rw [if_pos ⟨hi, hj⟩, if_pos (by omega), hj]
    · rw [if_neg (fun hc => hj hc.2)]
      split_ifs <;> first | rfl | omega

theorem int2row_apply (v : ℕ) {w : ℕ} (j : Fin w) :
    int2row v w 0 j = get_int_bit v j := by
  show ((List.range w).foldl
      (fun ret index => writeEntry ret 0 index (get_int_bit v index))
      (0 : Matrix (Fin 1) (Fin w) ℕ)) 0 j = _
  rw [int2rowFold_apply, if_pos j.isLt]

/-! ### Return times of a state under iteration of a GF(2) matrix -/

theorem pow_mul_return {w : ℕ} {M : Matrix (Fin w) (Fin w) (ZMod 2)}
    {v : Matrix (Fin w) (Fin 1) (ZMod 2)} {t : ℕ} (h : M ^ t * v = v) :
    ∀ q, M ^ (q * t) * v = v := by
  intro q
  induction q with
  | zero => simp
  | succ q ih =>
    have : M ^ (q * t + t) * v = M ^ (q * t) * (M ^ t * v) := by
      rw [pow_add, Matrix.mul_assoc]
    rw [Nat.succ_mul, this, h, ih]

theorem return_min_dvd {w : ℕ} {M : Matrix (Fin w) (Fin w) (ZMod 2)}
    {v : Matrix (Fin w) (Fin 1) (ZMod 2)} {t t0 : ℕ}
    (ht : M ^ t * v = v) (ht0pos : 0 < t0) (ht0 : M ^ t0 * v = v)
    (hmin : ∀ s, 0 < s → M ^ s * v = v → t0 ≤ s) : t0 ∣ t := by
  have hdm : t0 * (t / t0) + t % t0 = t := Nat.div_add_mod t t0
  have hrem : M ^ (t % t0) * v = v := by
    have h1 : M ^ (t % t0 + t0 * (t / t0)) * v = v := by
      rw [Nat.add_comm, hdm]
      exact ht
    have h2 : M ^ (t % t0 + t0 * (t / t0)) * v
        = M ^ (t % t0) * (M ^ (t / t0 * t0) * v) := by
      rw [pow_add, Matrix.mul_assoc, Nat.mul_comm t0]
    rw [h2, pow_mul_return ht0 (t / t0)] at h1
    exact h1
  rcases Nat.eq_zero_or_pos (t % t0) with hr | hr
  · exact Nat.dvd_of_mod_eq_zero hr
  · have hge := hmin _ hr hrem
    have hlt := Nat.mod_lt t ht0pos
    omega

/-- A validated polynomial (even number of taps) admits no nonzero fixed
point of its companion matrix over GF(2). -/
theorem companion_fixed_point_zero {w : ℕ} (hw : 0 < w)
    {poly : Matrix (Fin 1) (Fin w) ℕ}
    {v : Matrix (Fin w) (Fin 1) (ZMod 2)}
    (heven : (∑ j, poly 0 j) % 2 = 0)
    (hfix : toZ (companionBuild poly) * v = v) :
    v = 0 := by
  have happ : ∀ i : Fin w,
      (∑ j, (companionBuild poly i j : ZMod 2) * v j 0) = v i 0 := by
    intro i
    have h1 : (toZ (companionBuild poly) * v) i 0 = v i 0 := by rw [hfix]
    rw [Matrix.mul_apply] at h1
    simpa only [toZ_apply] using h1
  have hshift : ∀ (k : ℕ) (hk1 : k + 1 < w),
      v ⟨k + 1, hk1⟩ 0 = v ⟨k, by omega⟩ 0 := by
    intro k hk1
    have h1 := happ ⟨k + 1, hk1⟩
    have h2 : (∑ j, (companionBuild poly ⟨k + 1, hk1⟩ j : ZMod 2) * v j 0)
        = (companionBuild poly ⟨k + 1, hk1⟩ ⟨k, by omega⟩ : ZMod 2)
            * v ⟨k, by omega⟩ 0 := by
      apply Finset.sum_eq_single
      · intro b _ hb
        have hb1 : (b : ℕ) ≠ k := fun hc => hb (Fin.ext hc)
        rw [companionBuild_apply, if_neg (by simp), if_neg (by simp; omega)]
        simp
      · intro hj
        exact absurd (Finset.mem_univ _) hj
    have h3 : companionBuild poly ⟨k + 1, hk1⟩ ⟨k, by omega⟩ = 1 := by
      rw [companionBuild_apply, if_neg (by simp), if_pos (by simp)]
    rw [h2, h3] at h1
    rw [← h1, Nat.cast_one, one_mul]
  have hconst : ∀ (k : ℕ) (hk : k < w), v ⟨k, hk⟩ 0 = v ⟨0, hw⟩ 0 := by
    intro k
    induction k with
    | zero => intro hk; rfl
    | succ k ih =>
      intro hk1
      rw [hshift k hk1]
      exact ih (by omega)
  have hzero : v ⟨0, hw⟩ 0 = 0 := by
    have h1 := happ ⟨0, hw⟩
    have h2 : (∑ j, (companionBuild poly ⟨0, hw⟩ j : ZMod 2) * v j 0)
        = (∑ j, (poly 0 j : ZMod 2)) * v ⟨0, hw⟩ 0 := by
      rw [Finset.sum_mul]
      refine Finset.sum_congr rfl fun j _ => ?_
      rw [companionBuild_apply, if_pos rfl,
        show v j 0 = v ⟨0, hw⟩ 0 from hconst j.1 j.isLt]
    have h3 : ((∑ j, poly 0 j : ℕ) : ZMod 2) = 0 := by
      calc ((∑ j, poly 0 j : ℕ) : ZMod 2)
          = (((∑ j, poly 0 j) % 2 : ℕ) : ZMod 2) := (ZMod.natCast_mod _ 2).symm
        _ = ((0 : ℕ) : ZMod 2) := by rw [heven]
        _ = 0 := Nat.cast_zero
    rw [h2, ← Nat.cast_sum, h3, zero_mul] at h1
    exact h1.symm
  ext i j
  rw [Subsingleton.elim j 0,
    show v i 0 = v ⟨0, hw⟩ 0 from hconst i.1 i.isLt, hzero]
  simp

end LFSR_Math

namespace LFSR_Math

/-- The inner (strictly-between-1-and-`p`) divisors actually scanned by
`check_poly_max_length`: `sympy.divisors(p)[1:-1]`. -/
def scannedDivisors (p : ℕ) : List ℕ := ((sympy_divisors p).drop 1).dropLast

theorem sympy_divisors_cons (p : ℕ) :
    ∀ k, 2 ≤ k →
      (List.range k).filter (fun d => decide (0 < d ∧ d ∣ p))
        = 1 :: (List.range k).filter (fun d => decide (2 ≤ d ∧ d ∣ p)) := by
  intro k hk
  induction k with
  | zero => omega
  | succ k ih =>
    rcases Nat.lt_or_ge k 2 with h2 | h2
    · have hk1 : k = 1 := by omega
      subst hk1
      have hr : List.range 2 = [0, 1] := rfl
      rw [hr]
      simp [List.filter, Nat.one_dvd]
    · rw [List.range_succ, List.filter_append, List.filter_append, ih h2,
        List.cons_append]
      have hpq : (decide (0 < k ∧ k ∣ p)) = (decide (2 ≤ k ∧ k ∣ p)) := by
        apply decide_eq_decide.mpr
        constructor
        · rintro ⟨-, hd⟩; exact ⟨h2, hd⟩
        · rintro ⟨-, hd⟩; exact ⟨by omega, hd⟩
      simp only [List.filter, hpq]

theorem scannedDivisors_eq (p : ℕ) (hp : 2 ≤ p) :
    scannedDivisors p = (List.range p).filter (fun d => decide (2 ≤ d ∧ d ∣ p)) := by
  unfold scannedDivisors sympy_divisors
  rw [sympy_divisors_cons p (p + 1) (by omega), List.drop_one,
    List.tail_cons, List.range_succ, List.filter_append]
  have hlast : (List.filter (fun d => decide (2 ≤ d ∧ d ∣ p)) [p]) = [p] := by
    simp [List.filter, hp]
  rw [hlast, List.dropLast_concat]

theorem mem_scannedDivisors (p : ℕ) (hp : 2 ≤ p) (d : ℕ) :
    d ∈ scannedDivisors p ↔ 2 ≤ d ∧ d < p ∧ d ∣ p := by
  rw [scannedDivisors_eq p hp, List.mem_filter, List.mem_range,
    decide_eq_true_iff]
  tauto

theorem is_mersenne_prime_iff (w : ℕ) :
    is_mersenne_prime (2 ^ w - 1) = true ↔ Nat.Prime (2 ^ w - 1) := by
  have h2w : 1 ≤ 2 ^ w := Nat.one_le_two_pow
  have hww : w < 2 ^ w := Nat.lt_two_pow w
  unfold is_mersenne_prime
  rw [Bool.and_eq_true, decide_eq_true_iff, decide_eq_true_iff]
  constructor
  · rintro ⟨-, hn2, hnd⟩
    rw [Nat.prime_def_lt]
    refine ⟨hn2, fun m hm hdvd => ?_⟩
    by_contra hne
    rcases Nat.lt_or_ge m 2 with hm2 | hm2
    · interval_cases m
      · have := Nat.eq_zero_of_zero_dvd hdvd
        omega
      · exact hne rfl
    · exact hnd m hm hm2 hdvd
  · intro hp
    refine ⟨⟨w, by omega, by omega⟩, hp.two_le, fun m hm hm2 hdvd => ?_⟩
    have := (Nat.prime_def_lt.mp hp).2 m hm hdvd
    omega

theorem subPeriodLoop_all_ne {w : ℕ} (poly init : Matrix (Fin 1) (Fin w) ℕ) :
    ∀ (L : List ℕ) (msg : String),
      (∀ d ∈ L, fast_forward_poly_fibonacci poly init d ≠ init) →
      subPeriodLoop FeedbackModeEnum.Fibonacci poly init L msg
        = .ok (true, "") := by
  intro L
  induction L with
  | nil => intro msg _; rfl
  | cons d L ih =>
    intro msg hall
    have hne : ¬ (fast_forward_poly_fibonacci poly init d = init) :=
      hall d (List.mem_cons_self d L)
    simp only [subPeriodLoop, fast_forward_poly_wrapper]
    rw [if_neg hne]
    exact ih _ (fun e he => hall e (List.mem_cons_of_mem d he))

end LFSR_Math

namespace LFSR_Math

theorem subPeriodLoop_found {w : ℕ} (poly init : Matrix (Fin 1) (Fin w) ℕ) :
    ∀ (L : List ℕ) (msg : String),
      (∃ d ∈ L, fast_forward_poly_fibonacci poly init d = init) →
      ∃ m, subPeriodLoop FeedbackModeEnum.Fibonacci poly init L msg
        = .ok (false, m) := by
  intro L
  induction L with
  | nil =>
    rintro msg ⟨d, hd, -⟩
    exact absurd hd (List.not_mem_nil d)
  | cons d L ih =>
    intro msg hex
    by_cases hd : fast_forward_poly_fibonacci poly init d = init
    · refine ⟨(msg ++ "  Checking sub-period of " ++ toString d)
        ++ "    Value after sub-period matches initial value, not max length", ?_⟩
      simp only [subPeriodLoop, fast_forward_poly_wrapper]
      rw [if_pos hd]
    · obtain ⟨e, he, heq⟩ := hex
      have he2 : e ∈ L := by
        rcases List.mem_cons.mp he with h | h
        · exact absurd (h ▸ heq) hd
        · exact h
      obtain ⟨m, hm⟩ := ih _ ⟨e, he2, heq⟩
      refine ⟨m, ?_⟩
      simp only [subPeriodLoop, fast_forward_poly_wrapper]
      rw [if_neg hd]
      exact hm

theorem check_fib_eq {w : ℕ} (poly init : Matrix (Fin 1) (Fin w) ℕ) :
    check_poly_max_length FeedbackModeEnum.Fibonacci poly init
      = if fast_forward_poly_fibonacci poly init (period w) = init then
          (if is_mersenne_prime (period w) then .ok (true, "")
           else subPeriodLoop FeedbackModeEnum.Fibonacci poly init
             (scannedDivisors (period w))
             ("Value after full period matches initial value (OK)"
               ++ "\nChecking sub-periods..."))
        else .ok (false,
          "Value after full period doesn't match initial value, not max length") := by
  simp only [check_poly_max_length, fast_forward_poly_wrapper, scannedDivisors]
  by_cases h : fast_forward_poly_fibonacci poly init (period w) = init
  · rw [if_neg (not_not_intro h), if_pos h]
  · rw [if_pos h, if_neg h]

theorem validate_poly_numpy_even {w : ℕ} {poly : Matrix (Fin 1) (Fin w) ℕ}
    (h : (validate_poly_numpy poly).1 = true) : (∑ j, poly 0 j) % 2 = 0 := by
  unfold validate_poly_numpy at h
  by_cases h1 : (if hh : w - 1 < w then poly 0 ⟨w - 1, hh⟩ else 0) = 0
  · rw [if_pos h1] at h
    simp at h
  · rw [if_neg h1] at h
    by_cases h2 : (∑ j, poly 0 j) < 2
    · rw [if_pos h2] at h
      simp at h
    · rw [if_neg h2] at h
      by_cases h3 : (∑ j, poly 0 j) % 2 > 0
      · rw [if_pos h3] at h
        simp at h
      · omega

end LFSR_Math

open LFSR_Math in
/-- **C1.** For every `width ≥ 3`, every Fibonacci-mode polynomial passing
`validate_poly_numpy` (with bit-valued entries), and every nonzero bit-valued
width-bit initial state, `check_poly_max_length` returns true (i.e. `(True, "")`)
iff the least positive `t` with `companion^t * state = state` over GF(2) is
exactly `2^width - 1`; moreover the Mersenne-prime short-circuit taken by the
code fires exactly when `2^width - 1` is prime. -/
theorem C1_check_poly_max_length_iff_least_period {w : ℕ} (hw : 3 ≤ w)
    (poly init : Matrix (Fin 1) (Fin w) ℕ)
    (_hpb : ∀ i j, poly i j ≤ 1) (hib : ∀ i j, init i j ≤ 1)
    (hval : (validate_poly_numpy poly).1 = true)
    (hnz : init ≠ 0) :
    (check_poly_max_length FeedbackModeEnum.Fibonacci poly init
        = .ok (true, "")
      ↔ IsLeast {t : ℕ | 0 < t ∧
          toZ (companionBuild poly) ^ t * toZ init.transpose
            = toZ init.transpose} (2 ^ w - 1))
    ∧ (is_mersenne_prime (2 ^ w - 1) = true ↔ Nat.Prime (2 ^ w - 1)) := by
  have h2w : 1 ≤ 2 ^ w := Nat.one_le_two_pow
  have hp7 : 7 ≤ 2 ^ w - 1 := by
    have h8 : 2 ^ 3 ≤ 2 ^ w := Nat.pow_le_pow_right (by norm_num) hw
    omega
  have heven := validate_poly_numpy_even hval
  have hperiod : period w = 2 ^ w - 1 := rfl
  have hib0 : ∀ j, init 0 j ≤ 1 := hib 0
  have hvnz : toZ init.transpose ≠ 0 := by
    intro hv0
    apply hnz
    have hb0 : ∀ (i : Fin w) (j : Fin 1),
        (0 : Matrix (Fin 1) (Fin w) ℕ).transpose i j ≤ 1 := by
      intro i j
      simp [Matrix.transpose_apply]
    have hbi : ∀ (i : Fin w) (j : Fin 1), init.transpose i j ≤ 1 :=
      fun i j => hib j i
    have ht : init.transpose = (0 : Matrix (Fin 1) (Fin w) ℕ).transpose := by
      apply toZ_inj_of_bool hbi hb0
      rw [hv0]
      ext i j
      simp [toZ_apply, Matrix.transpose_apply]
    exact Matrix.transpose_inj.mp ht
  have hret : ∀ n, n < 2 ^ w →
      (fast_forward_poly_fibonacci poly init n = init ↔
        toZ (companionBuild poly) ^ n * toZ init.transpose
          = toZ init.transpose) := by
    intro n hn
    rw [fast_forward_eq_iff hib n, Nat.mod_eq_of_lt hn]
  refine ⟨?_, is_mersenne_prime_iff w⟩
  rw [check_fib_eq, hperiod]
  constructor
  · intro hchk
    by_cases hffp : fast_forward_poly_fibonacci poly init (2 ^ w - 1) = init
    · rw [if_pos hffp] at hchk
      have hMp : toZ (companionBuild poly) ^ (2 ^ w - 1) * toZ init.transpose
          = toZ init.transpose := (hret (2 ^ w - 1) (by omega)).mp hffp
      have hEx : ∃ t, 0 < t ∧
          toZ (companionBuild poly) ^ t * toZ init.transpose
            = toZ init.transpose := ⟨2 ^ w - 1, by omega, hMp⟩
      obtain ⟨ht0pos, ht0ret⟩ := Nat.find_spec hEx
      have hmin : ∀ s, 0 < s →
          toZ (companionBuild poly) ^ s * toZ init.transpose
            = toZ init.transpose → Nat.find hEx ≤ s :=
        fun s hs hr => Nat.find_min' hEx ⟨hs, hr⟩
      have ht0le : Nat.find hEx ≤ 2 ^ w - 1 := Nat.find_min' hEx ⟨by omega, hMp⟩
      have hdvd : Nat.find hEx ∣ 2 ^ w - 1 :=
        return_min_dvd hMp ht0pos ht0ret hmin
      have ht0ne1 : Nat.find hEx ≠ 1 := by
        intro h1
        rw [h1, pow_one] at ht0ret
        exact hvnz (companion_fixed_point_zero (by omega) heven ht0ret)
      have ht0p : Nat.find hEx = 2 ^ w - 1 := by
        by_contra hne
        have ht0ltp : Nat.find hEx < 2 ^ w - 1 := by omega
        have ht02 : 2 ≤ Nat.find hEx := by omega
        cases hm : is_mersenne_prime (2 ^ w - 1) with
        | true =>
          have hprime : Nat.Prime (2 ^ w - 1) := (is_mersenne_prime_iff w).mp hm
          rcases (Nat.Prime.eq_one_or_self_of_dvd hprime _ hdvd) with h | h
          · exact ht0ne1 h
          · exact hne h
        | false =>
          rw [if_neg (by simp [hm])] at hchk
          have ht0mem : Nat.find hEx ∈ scannedDivisors (2 ^ w - 1) :=
            (mem_scannedDivisors (2 ^ w - 1) (by omega) _).mpr
              ⟨ht02, ht0ltp, hdvd⟩
          have hfft0 : fast_forward_poly_fibonacci poly init (Nat.find hEx)
              = init := (hret _ (by omega)).mpr ht0ret
          obtain ⟨m, hm2⟩ := subPeriodLoop_found poly init _ _
            ⟨Nat.find hEx, ht0mem, hfft0⟩
          rw [hm2] at hchk
          exact absurd hchk (by simp)
      refine ⟨⟨by omega, hMp⟩, ?_⟩
      intro t ht
      rw [← ht0p]
      exact hmin t ht.1 ht.2
    · rw [if_neg hffp] at hchk
      exact absurd hchk (by simp)
  · rintro ⟨⟨hppos, hMp⟩, hlb⟩
    rw [if_pos ((hret (2 ^ w - 1) (by omega)).mpr hMp)]
    cases hm : is_mersenne_prime (2 ^ w - 1) with
    | true => rw [if_pos rfl]
    | false =>
      rw [if_neg (by simp [hm])]
      apply subPeriodLoop_all_ne
      intro d hd hffd
      obtain ⟨hd2, hdp, hddvd⟩ :=
        (mem_scannedDivisors (2 ^ w - 1) (by omega) d).mp hd
      have hped : 2 ^ w - 1 ≤ d :=
        hlb ⟨by omega, (hret d (by omega)).mp hffd⟩
      omega

open LFSR_Math in
/-- Witness for C1: `width = 3`, polynomial taps `x^2 + x` (bits `0b110`,
row `!![0,1,1]`), initial state `1` (row `!![1,0,0]`). -/
theorem C1_check_poly_max_length_witness :
    ((3 : ℕ) ≤ 3
      ∧ (∀ (i : Fin 1) (j : Fin 3), (!![0,1,1] : Matrix (Fin 1) (Fin 3) ℕ) i j ≤ 1)
      ∧ (∀ (i : Fin 1) (j : Fin 3), (!![1,0,0] : Matrix (Fin 1) (Fin 3) ℕ) i j ≤ 1)
      ∧ (validate_poly_numpy (!![0,1,1] : Matrix (Fin 1) (Fin 3) ℕ)).1 = true
      ∧ (!![1,0,0] : Matrix (Fin 1) (Fin 3) ℕ) ≠ 0)
    ∧ ((check_poly_max_length FeedbackModeEnum.Fibonacci
          (!![0,1,1] : Matrix (Fin 1) (Fin 3) ℕ) !![1,0,0] = .ok (true, "")
        ↔ IsLeast {t : ℕ | 0 < t ∧
            toZ (companionBuild (!![0,1,1] : Matrix (Fin 1) (Fin 3) ℕ)) ^ t
              * toZ ((!![1,0,0] : Matrix (Fin 1) (Fin 3) ℕ)).transpose
              = toZ ((!![1,0,0] : Matrix (Fin 1) (Fin 3) ℕ)).transpose}
            (2 ^ 3 - 1))
      ∧ (is_mersenne_prime (2 ^ 3 - 1) = true ↔ Nat.Prime (2 ^ 3 - 1))) :=
  ⟨⟨by norm_num, by decide, by decide, by decide, by decide⟩,
    C1_check_poly_max_length_iff_least_period (by norm_num) _ _ (by decide)
      (by decide) (by decide) (by decide)⟩

namespace LFSR_Math

theorem div_pow_mod_of_lt {v k w : ℕ} (h : k < w) :
    v % 2 ^ w / 2 ^ k % 2 = v / 2 ^ k % 2 := by
  have h1 := Nat.testBit_mod_two_pow v w k
  rw [Nat.testBit_to_div_mod, Nat.testBit_to_div_mod] at h1
  rw [decide_eq_true h, Bool.true_and] at h1
  have ha : v % 2 ^ w / 2 ^ k % 2 < 2 := Nat.mod_lt _ (by norm_num)
  have hb : v / 2 ^ k % 2 < 2 := Nat.mod_lt _ (by norm_num)
  have h2 := decide_eq_decide.mp h1
  omega

end LFSR_Math

open LFSR_Math in
/-- **C2 (amended).** For a width-by-width bit matrix `M` and exponent
`e < 2^width`, `matrix_exponentiate_gf2 M e` is the matrix power `M^e` with
every entry reduced modulo 2; in particular `e = 0` yields the identity.
(The loop only scans bits `0, …, width-1` of the exponent, so for general
`e` the result is `M^(e % 2^width)` mod 2, not `M^e` mod 2.) -/
theorem C2_matrix_exponentiate_gf2_pow {w : ℕ}
    (mtx : Matrix (Fin w) (Fin w) ℕ) (e : ℕ)
    (_hb : ∀ i j, mtx i j ≤ 1) (he : e < 2 ^ w) :
    matrix_exponentiate_gf2 mtx e
      = Matrix.of (fun i j => (mtx ^ e) i j % 2)
    ∧ matrix_exponentiate_gf2 mtx 0 = 1 := by
  have key : ∀ k, k < 2 ^ w → matrix_exponentiate_gf2 mtx k
      = Matrix.of (fun i j => (mtx ^ k) i j % 2) := by
    intro k hk
    apply toZ_inj_of_bool
    · exact matrix_exponentiate_gf2_bool mtx k
    · intro i j
      show (mtx ^ k) i j % 2 ≤ 1
      omega
    · rw [matrix_exponentiate_gf2_toZ, Nat.mod_eq_of_lt hk]
      have h1 : toZ (Matrix.of (fun i j => (mtx ^ k) i j % 2))
          = toZ (mtx ^ k) := by
        ext i j
        exact ZMod.natCast_mod _ 2
      rw [h1, toZ_pow]
  refine ⟨key e he, ?_⟩
  rw [key 0 (by positivity)]
  ext i j
  show (mtx ^ 0) i j % 2 = (1 : Matrix (Fin w) (Fin w) ℕ) i j
  rw [pow_zero, Matrix.one_apply]
  split <;> rfl

open LFSR_Math in
/-- Witness for the amended C2 at width 2, `M = [[1,1],[1,0]]`, `e = 3`. -/
theorem C2_matrix_exponentiate_gf2_pow_witness :
    ((∀ i j, (!![1,1;1,0] : Matrix (Fin 2) (Fin 2) ℕ) i j ≤ 1) ∧ 3 < 2 ^ 2)
    ∧ (matrix_exponentiate_gf2 (!![1,1;1,0] : Matrix (Fin 2) (Fin 2) ℕ) 3
        = Matrix.of (fun i j =>
            ((!![1,1;1,0] : Matrix (Fin 2) (Fin 2) ℕ) ^ 3) i j % 2)
      ∧ matrix_exponentiate_gf2 (!![1,1;1,0] : Matrix (Fin 2) (Fin 2) ℕ) 0
          = 1) :=
  ⟨⟨by decide, by norm_num⟩,
    C2_matrix_exponentiate_gf2_pow !![1,1;1,0] 3 (by decide) (by norm_num)⟩

open LFSR_Math in
/-- **C2, counterexample to the claim as stated**: for the 1-by-1 zero
matrix (entries in `{0,1}`) and exponent `e = 2 ≥ 2^1`, the code returns the
identity (bit 1 of the exponent is never scanned), not `M^2` mod 2. -/
theorem C2_matrix_exponentiate_gf2_counterexample :
    matrix_exponentiate_gf2 (0 : Matrix (Fin 1) (Fin 1) ℕ) 2
      ≠ Matrix.of (fun i j => ((0 : Matrix (Fin 1) (Fin 1) ℕ) ^ 2) i j % 2) := by
  decide

open LFSR_Math in
/-- **C3 (amended).** Exponent-additivity of `fast_forward_poly_fibonacci`
holds whenever `a + b < 2^width` (the exponentiation loop only reads the
low `width` bits of the step count, so it fails for larger `a + b`). -/
theorem C3_fast_forward_additive {w : ℕ} (_hw : 3 ≤ w)
    (poly init : Matrix (Fin 1) (Fin w) ℕ)
    (_hpb : ∀ i j, poly i j ≤ 1) (_hib : ∀ i j, init i j ≤ 1)
    (a b : ℕ) (hab : a + b < 2 ^ w) :
    fast_forward_poly_fibonacci poly (fast_forward_poly_fibonacci poly init a) b
      = fast_forward_poly_fibonacci poly init (a + b) := by
  have ha : a < 2 ^ w := by omega
  have hb : b < 2 ^ w := by omega
  apply Matrix.transpose_inj.mp
  apply toZ_inj_of_bool
  · intro i j
    exact fast_forward_poly_fibonacci_bool _ _ _ j i
  · intro i j
    exact fast_forward_poly_fibonacci_bool _ _ _ j i
  · rw [fast_forward_toZ, fast_forward_toZ, fast_forward_toZ,
      Nat.mod_eq_of_lt ha, Nat.mod_eq_of_lt hb, Nat.mod_eq_of_lt hab,
      ← Matrix.mul_assoc, ← pow_add, Nat.add_comm b a]

open LFSR_Math in
/-- Witness for the amended C3: width 3, polynomial `!![0,1,1]`, state
`!![1,0,0]`, `a = 3`, `b = 4` with `a + b = 7 < 8`. -/
theorem C3_fast_forward_additive_witness :
    ((3 : ℕ) ≤ 3
      ∧ (∀ i j, (!![0,1,1] : Matrix (Fin 1) (Fin 3) ℕ) i j ≤ 1)
      ∧ (∀ i j, (!![1,0,0] : Matrix (Fin 1) (Fin 3) ℕ) i j ≤ 1)
      ∧ 3 + 4 < 2 ^ 3)
    ∧ fast_forward_poly_fibonacci (!![0,1,1] : Matrix (Fin 1) (Fin 3) ℕ)
        (fast_forward_poly_fibonacci !![0,1,1] !![1,0,0] 3) 4
      = fast_forward_poly_fibonacci !![0,1,1] !![1,0,0] (3 + 4) :=
  ⟨⟨by norm_num, by decide, by decide, by norm_num⟩,
    C3_fast_forward_additive (by norm_num) !![0,1,1] !![1,0,0] (by decide)
      (by decide) 3 4 (by norm_num)⟩

open LFSR_Math in
/-- **C3, counterexample to the claim as stated**: at width 3 with the
valid polynomial `!![0,1,1]` and state `!![1,0,0]`, advancing by 4 twice
differs from advancing by 8 in one call (8 is reduced mod `2^3`). -/
theorem C3_fast_forward_additive_counterexample :
    fast_forward_poly_fibonacci (!![0,1,1] : Matrix (Fin 1) (Fin 3) ℕ)
      (fast_forward_poly_fibonacci !![0,1,1] !![1,0,0] 4) 4
    ≠ fast_forward_poly_fibonacci (!![0,1,1] : Matrix (Fin 1) (Fin 3) ℕ)
        !![1,0,0] (4 + 4) := by
  decide

open LFSR_Math in
/-- **C4.** For `width ≥ 3` and a width-bit polynomial with entries in
`{0,1}`, `validate_poly_numpy` succeeds iff bit `width-1` is set, the
number of set bits is at least 2, and the number of set bits is even; on
failure the diagnostic message is non-empty, on success it is empty. -/
theorem C4_validate_poly_numpy_spec {w : ℕ} (_hw : 3 ≤ w) (hidx : w - 1 < w)
    (poly : Matrix (Fin 1) (Fin w) ℕ) (hb : ∀ i j, poly i j ≤ 1) :
    ((validate_poly_numpy poly).1 = true ↔
      (poly 0 ⟨w - 1, hidx⟩ = 1 ∧ 2 ≤ ∑ j, poly 0 j
        ∧ (∑ j, poly 0 j) % 2 = 0))
    ∧ ((validate_poly_numpy poly).1 = false → (validate_poly_numpy poly).2 ≠ "")
    ∧ ((validate_poly_numpy poly).1 = true → (validate_poly_numpy poly).2 = "") := by
  have hb1 := hb 0 ⟨w - 1, hidx⟩
  unfold validate_poly_numpy
  rw [dif_pos hidx]
  by_cases h1 : poly 0 ⟨w - 1, hidx⟩ = 0
  · rw [if_pos h1]
    refine ⟨⟨fun h => by simp at h, fun h => absurd h.1 (by omega)⟩,
      fun _ => by decide, fun h => by simp at h⟩
  · rw [if_neg h1]
    by_cases h2 : (∑ j, poly 0 j) < 2
    · rw [if_pos h2]
      refine ⟨⟨fun h => by simp at h, fun h => absurd h.2.1 (by omega)⟩,
        fun _ => by decide, fun h => by simp at h⟩
    · rw [if_neg h2]
      by_cases h3 : (∑ j, poly 0 j) % 2 > 0
      · rw [if_pos h3]
        refine ⟨⟨fun h => by simp at h, fun h => absurd h.2.2 (by omega)⟩,
          fun _ => by decide, fun h => by simp at h⟩
      · rw [if_neg h3]
        exact ⟨⟨fun _ => ⟨by omega, by omega, by omega⟩, fun _ => rfl⟩,
          fun h => by simp at h, fun _ => rfl⟩

open LFSR_Math in
/-- Witness for C4 at width 3 with polynomial `!![0,1,1]`. -/
theorem C4_validate_poly_numpy_spec_witness :
    ((3 : ℕ) ≤ 3 ∧ 3 - 1 < 3
      ∧ (∀ i j, (!![0,1,1] : Matrix (Fin 1) (Fin 3) ℕ) i j ≤ 1))
    ∧ (((validate_poly_numpy (!![0,1,1] : Matrix (Fin 1) (Fin 3) ℕ)).1 = true ↔
        ((!![0,1,1] : Matrix (Fin 1) (Fin 3) ℕ) 0 ⟨3 - 1, by norm_num⟩ = 1
          ∧ 2 ≤ ∑ j, (!![0,1,1] : Matrix (Fin 1) (Fin 3) ℕ) 0 j
          ∧ (∑ j, (!![0,1,1] : Matrix (Fin 1) (Fin 3) ℕ) 0 j) % 2 = 0))
      ∧ ((validate_poly_numpy (!![0,1,1] : Matrix (Fin 1) (Fin 3) ℕ)).1 = false →
          (validate_poly_numpy (!![0,1,1] : Matrix (Fin 1) (Fin 3) ℕ)).2 ≠ "")
      ∧ ((validate_poly_numpy (!![0,1,1] : Matrix (Fin 1) (Fin 3) ℕ)).1 = true →
          (validate_poly_numpy (!![0,1,1] : Matrix (Fin 1) (Fin 3) ℕ)).2 = "")) :=
  ⟨⟨by norm_num, by norm_num, by decide⟩,
    C4_validate_poly_numpy_spec (by norm_num) (by norm_num) !![0,1,1]
      (by decide)⟩

open LFSR_Math in
/-- **C5.** The transition matrix built inside
`fast_forward_poly_fibonacci` has row 0 equal to the polynomial's tap
vector, and each row `i ≠ 0` has a single 1 in column `i - 1`. -/
theorem C5_companion_structure {w : ℕ} (hw : 3 ≤ w)
    (poly : Matrix (Fin 1) (Fin w) ℕ) :
    (∀ j : Fin w, companionBuild poly ⟨0, by omega⟩ j = poly 0 j)
    ∧ (∀ (i j : Fin w), (i : ℕ) ≠ 0 →
        companionBuild poly i j
          = if (j : ℕ) + 1 = (i : ℕ) then 1 else 0) := by
  constructor
  · intro j
    rw [companionBuild_apply, if_pos rfl]
  · intro i j hi
    rw [companionBuild_apply, if_neg hi]
    split_ifs <;> omega

open LFSR_Math in
/-- Witness for C5 at width 3 with the polynomial row `!![4,5,6]`. -/
theorem C5_companion_structure_witness :
    (3 : ℕ) ≤ 3
    ∧ ((∀ j : Fin 3,
        companionBuild (!![4,5,6] : Matrix (Fin 1) (Fin 3) ℕ) ⟨0, by norm_num⟩ j
          = (!![4,5,6] : Matrix (Fin 1) (Fin 3) ℕ) 0 j)
      ∧ (∀ (i j : Fin 3), (i : ℕ) ≠ 0 →
          companionBuild (!![4,5,6] : Matrix (Fin 1) (Fin 3) ℕ) i j
            = if (j : ℕ) + 1 = (i : ℕ) then 1 else 0)) :=
  ⟨by norm_num, C5_companion_structure (by norm_num) !![4,5,6]⟩

open LFSR_Math in
/-- **C6.** Requesting a Galois-mode transition or certification raises
`NotImplementedError` for every input: `fast_forward_poly_galois` raises,
and `fast_forward_poly_wrapper` and `check_poly_max_length` in Galois mode
propagate the error. -/
theorem C6_galois_not_implemented {w : ℕ}
    (poly init : Matrix (Fin 1) (Fin w) ℕ) (steps : ℕ) :
    fast_forward_poly_galois poly init steps
        = .error PyError.notImplementedError
    ∧ fast_forward_poly_wrapper FeedbackModeEnum.Galois poly init steps
        = .error PyError.notImplementedError
    ∧ check_poly_max_length FeedbackModeEnum.Galois poly init
        = .error PyError.notImplementedError :=
  ⟨rfl, rfl, rfl⟩

open LFSR_Math in
/-- **C7.** `validate_init_value_int` fails exactly on the all-zero state
in Fibonacci mode and the all-ones (`2^width - 1`) state in Galois mode,
with a non-empty diagnostic on failure and an empty message otherwise. -/
theorem C7_validate_init_value_int_spec
    (mode : FeedbackModeEnum) (v : ℤ) (width : ℕ) :
    ((validate_init_value_int mode v width).1 = false ↔
      ((mode = FeedbackModeEnum.Fibonacci ∧ v = 0)
        ∨ (mode = FeedbackModeEnum.Galois ∧ v = 2 ^ width - 1)))
    ∧ ((validate_init_value_int mode v width).1 = false →
        (validate_init_value_int mode v width).2 ≠ "")
    ∧ ((validate_init_value_int mode v width).1 = true →
        (validate_init_value_int mode v width).2 = "") := by
  unfold validate_init_value_int
  by_cases h1 : mode = FeedbackModeEnum.Fibonacci ∧ v = 0
  · rw [if_pos h1]
    exact ⟨⟨fun _ => Or.inl h1, fun _ => rfl⟩, fun _ => by decide,
      fun h => by simp at h⟩
  · rw [if_neg h1]
    by_cases h2 : mode = FeedbackModeEnum.Galois ∧ v = 2 ^ width - 1
    · rw [if_pos h2]
      exact ⟨⟨fun _ => Or.inr h2, fun _ => rfl⟩, fun _ => by decide,
        fun h => by simp at h⟩
    · rw [if_neg h2]
      refine ⟨⟨fun h => by simp at h, fun h => ?_⟩, fun h => by simp at h,
        fun _ => rfl⟩
      rcases h with h | h
      · exact absurd h h1
      · exact absurd h h2

open LFSR_Math in
/-- **C8.** With all inputs bit-valued, every entry of the matrix returned
by `matrix_exponentiate_gf2` and of the state returned by
`fast_forward_poly_fibonacci` lies in `{0,1}`. -/
theorem C8_entries_stay_boolean {w : ℕ}
    (mtx : Matrix (Fin w) (Fin w) ℕ) (pwr : ℕ)
    (poly init : Matrix (Fin 1) (Fin w) ℕ) (steps : ℕ)
    (_hm : ∀ i j, mtx i j ≤ 1) (_hp : ∀ i j, poly i j ≤ 1)
    (_hi : ∀ i j, init i j ≤ 1) :
    (∀ i j, matrix_exponentiate_gf2 mtx pwr i j ≤ 1)
    ∧ (∀ i j, fast_forward_poly_fibonacci poly init steps i j ≤ 1) :=
  ⟨matrix_exponentiate_gf2_bool mtx pwr,
    fast_forward_poly_fibonacci_bool poly init steps⟩

open LFSR_Math in
/-- Witness for C8 at width 3. -/
theorem C8_entries_stay_boolean_witness :
    ((∀ i j, (!![0,1,0;1,1,0;0,0,1] : Matrix (Fin 3) (Fin 3) ℕ) i j ≤ 1)
      ∧ (∀ i j, (!![0,1,1] : Matrix (Fin 1) (Fin 3) ℕ) i j ≤ 1)
      ∧ (∀ i j, (!![1,0,0] : Matrix (Fin 1) (Fin 3) ℕ) i j ≤ 1))
    ∧ ((∀ i j, matrix_exponentiate_gf2
          (!![0,1,0;1,1,0;0,0,1] : Matrix (Fin 3) (Fin 3) ℕ) 5 i j ≤ 1)
      ∧ (∀ i j, fast_forward_poly_fibonacci
          (!![0,1,1] : Matrix (Fin 1) (Fin 3) ℕ) !![1,0,0] 5 i j ≤ 1)) :=
  ⟨⟨by decide, by decide, by decide⟩,
    C8_entries_stay_boolean !![0,1,0;1,1,0;0,0,1] 5 !![0,1,1] !![1,0,0] 5
      (by decide) (by decide) (by decide)⟩

open LFSR_Math in
/-- **C10.** `int2row value width` is the 1-by-width row whose entry `i` is
bit `i` of `value`; bits at positions `width` and above are silently
discarded: `int2row value width = int2row (value % 2^width) width`. -/
theorem C10_int2row_bits (value width : ℕ) (_hw : 1 ≤ width) :
    (∀ j : Fin width, int2row value width 0 j = value / 2 ^ (j : ℕ) % 2)
    ∧ int2row value width = int2row (value % 2 ^ width) width := by
  constructor
  · intro j
    rw [int2row_apply, get_int_bit_eq_div_mod]
  · ext i j
    rw [Subsingleton.elim i 0, int2row_apply, int2row_apply,
      get_int_bit_eq_div_mod, get_int_bit_eq_div_mod,
      div_pow_mod_of_lt j.isLt]

open LFSR_Math in
/-- Witness for C10 at `value = 13`, `width = 3` (note `13 ≥ 2^3`). -/
theorem C10_int2row_bits_witness :
    (1 : ℕ) ≤ 3
    ∧ ((∀ j : Fin 3, int2row 13 3 0 j = 13 / 2 ^ (j : ℕ) % 2)
      ∧ int2row 13 3 = int2row (13 % 2 ^ 3) 3) :=
  ⟨by norm_num, C10_int2row_bits 13 3 (by norm_num)⟩

/-!
### Store-passing embedding for the frame claims

numpy arrays are heap objects mutated in place (`mtx[r][c] %= 2`,
`mtx[0] = poly[0]`), while `numpy.matmul`, `numpy.zeros`, `numpy.identity`
allocate fresh arrays.  This section re-embeds the array-manipulating
functions of `lfsr_math.py` with an explicit store of allocated arrays, so
that the claim that callers' argument arrays are never mutated becomes a
theorem about the store.
-/

namespace LFSR_Math

/-- A numpy array: a dynamically shaped integer matrix. -/
structure Arr where
  rows : ℕ
  cols : ℕ
  data : Matrix (Fin rows) (Fin cols) ℕ

/-- The store of allocated arrays; an array identifier is an index. -/
abbrev Store := List Arr

/-- Read the array at id `i` (dangling ids give an empty array; the
embedded code only reads ids it was given or allocated). -/
def Store.geta (s : Store) (i : ℕ) : Arr := s.getD i ⟨0, 0, 0⟩

/-- Write the array at id `i` in place. -/
def Store.write (s : Store) (i : ℕ) (a : Arr) : Store := s.set i a

/-- Read entry `(i, j)` of an array, 0 when out of range (the source never
reads out of range). -/
def Arr.entry (a : Arr) (i j : ℕ) : ℕ :=
  if h : i < a.rows ∧ j < a.cols then a.data ⟨i, h.1⟩ ⟨j, h.2⟩ else 0

/-- `numpy.matmul` (allocates; shapes always agree in the source). -/
def arrMatmul (a b : Arr) : Arr :=
  ⟨a.rows, b.cols, fun i j => ∑ k : Fin a.cols, a.data i k * b.entry k j⟩

/-- `numpy.transpose`.  In numpy this is a view; no write in the source
ever goes through one of these views, so a value copy is an adequate
model for the frame property. -/
def arrTranspose (a : Arr) : Arr := ⟨a.cols, a.rows, fun i j => a.data j i⟩

/-- `numpy.zeros([width, width])`. -/
def arrZeros (width : ℕ) : Arr := ⟨width, width, 0⟩

/-- `numpy.identity(width)`. -/
def arrIdentity (width : ℕ) : Arr := ⟨width, width, 1⟩

/-- In-place `matrix_gf2(mtx, width)` on the array at `id`. -/
def storeMatrixGf2 (s : Store) (id width : ℕ) : Store :=
  s.write id
    ⟨(s.geta id).rows, (s.geta id).cols, fun i j =>
      if (i : ℕ) < width ∧ (j : ℕ) < width then (s.geta id).data i j % 2
      else (s.geta id).data i j⟩

/-- In-place `column_gf2(mtx, width, col)` on the array at `id`. -/
def storeColumnGf2 (s : Store) (id width col : ℕ) : Store :=
  s.write id
    ⟨(s.geta id).rows, (s.geta id).cols, fun i j =>
      if (i : ℕ) < width ∧ (j : ℕ) = col then (s.geta id).data i j % 2
      else (s.geta id).data i j⟩

/-- In-place element write `mtx[r][c] = x` on the array at `id`. -/
def storeSetElem (s : Store) (id r c x : ℕ) : Store :=
  s.write id
    ⟨(s.geta id).rows, (s.geta id).cols, fun i j =>
      if (i : ℕ) = r ∧ (j : ℕ) = c then x else (s.geta id).data i j⟩

/-- In-place row assignment `dst[0] = src[0]` (numpy copies values). -/
def storeSetRow0 (s : Store) (dstId srcId : ℕ) : Store :=
  s.write dstId
    ⟨(s.geta dstId).rows, (s.geta dstId).cols, fun i j =>
      if (i : ℕ) = 0 then (s.geta srcId).entry 0 (j : ℕ)
      else (s.geta dstId).data i j⟩

/-- One iteration of the `matrix_exponentiate_gf2` loop, store-passing;
the state is `(store, id of result, id of base)`.  A fresh array is
allocated by appending; its id is the store length at allocation time. -/
def expStepH (pwr width : ℕ) (st : Store × ℕ × ℕ) (i : ℕ) : Store × ℕ × ℕ :=
  if get_int_bit pwr i > 0 then
    let sA := storeMatrixGf2
      (st.1 ++ [arrMatmul (st.1.geta st.2.1) (st.1.geta st.2.2)])
      st.1.length width
    (storeMatrixGf2 (sA ++ [arrMatmul (sA.geta st.2.2) (sA.geta st.2.2)])
      sA.length width, st.1.length, sA.length)
  else
    (storeMatrixGf2
      (st.1 ++ [arrMatmul (st.1.geta st.2.2) (st.1.geta st.2.2)])
      st.1.length width, st.2.1, st.1.length)

/-- `matrix_exponentiate_gf2`, store-passing: `result` starts as a fresh
identity matrix and `base` initially aliases the caller's `mtx` array. -/
def matrix_exponentiate_gf2_H (s : Store) (mtxId pwr width : ℕ) :
    Store × ℕ :=
  let r := (List.range width).foldl (expStepH pwr width)
    (s ++ [arrIdentity width], s.length, mtxId)
  (r.1, r.2.1)

/-- `fast_forward_poly_fibonacci`, store-passing. -/
def fast_forward_poly_fibonacci_H (s : Store)
    (polyId initId steps width : ℕ) : Store × ℕ :=
  let s1 := s ++ [arrTranspose (s.geta initId)]
  let initTId := s.length
  let s2 := s1 ++ [arrZeros width]
  let mtxId := s1.length
  let s3 := (List.range (width - 1)).foldl
    (fun st i => storeSetElem st mtxId (i + 1) i 1) s2
  let s4 := storeSetRow0 s3 mtxId polyId
  let r5 := matrix_exponentiate_gf2_H s4 mtxId steps width
  let s6 := r5.1 ++ [arrMatmul (r5.1.geta r5.2) (r5.1.geta initTId)]
  let lastId := r5.1.length
  let s7 := storeColumnGf2 s6 lastId width 0
  (s7 ++ [arrTranspose (s7.geta lastId)], s7.length)

/-- `fast_forward_poly_wrapper`, store-passing; `none` models the
`NotImplementedError` raised before any store operation in Galois mode. -/
def fast_forward_poly_wrapper_H (mode : FeedbackModeEnum) (s : Store)
    (polyId initId count width : ℕ) : Option (Store × ℕ) :=
  match mode with
  | .Fibonacci => some (fast_forward_poly_fibonacci_H s polyId initId count width)
  | .Galois => none

/-- `numpy.array_equal` on two arrays. -/
def arrEqB (a b : Arr) : Bool :=
  decide (a.rows = b.rows) && decide (a.cols = b.cols) &&
    decide (∀ (i : Fin a.rows) (j : Fin a.cols), a.data i j = b.entry i j)

/-- The sub-period loop of `check_poly_max_length`, store-passing
(diagnostic strings omitted; only the store and verdict matter here). -/
def subPeriodLoop_H (mode : FeedbackModeEnum) (polyId initId width : ℕ) :
    Store → List ℕ → Option (Store × Bool)
  | s, [] => some (s, true)
  | s, d :: rest =>
    match fast_forward_poly_wrapper_H mode s polyId initId d width with
    | none => none
    | some (s1, lastId) =>
      if arrEqB (s1.geta lastId) (s1.geta initId) then some (s1, false)
      else subPeriodLoop_H mode polyId initId width s1 rest

/-- `check_poly_max_length`, store-passing. -/
def check_poly_max_length_H (mode : FeedbackModeEnum) (s : Store)
    (polyId initId width : ℕ) : Option (Store × Bool) :=
  let p := period width
  match fast_forward_poly_wrapper_H mode s polyId initId p width with
  | none => none
  | some (s1, lastId) =>
    if ¬ (arrEqB (s1.geta lastId) (s1.geta initId) = true) then
      some (s1, false)
    else if is_mersenne_prime p then some (s1, true)
    else subPeriodLoop_H mode polyId initId width s1
      ((sympy_divisors p).drop 1).dropLast

/-- `validate_poly_numpy`, store-passing: it only reads the store. -/
def validate_poly_numpy_H (s : Store) (polyId width : ℕ) :
    Store × Bool × String :=
  (s,
    if (s.geta polyId).entry 0 (width - 1) = 0 then
      (false, "Polynomial does not have nonzero coefficient for the largest power of x")
    else if (∑ j : Fin (s.geta polyId).cols, (s.geta polyId).entry 0 (j : ℕ)) < 2 then
      (false, "Polynomial must have at least two feedback taps")
    else if (∑ j : Fin (s.geta polyId).cols, (s.geta polyId).entry 0 (j : ℕ)) % 2 > 0 then
      (false, "Polynomial must have an even number of feedback taps")
    else (true, ""))

/-- `validate_init_value_int`, store-passing: it takes no array argument
and touches no array. -/
def validate_init_value_int_H (s : Store) (mode : FeedbackModeEnum)
    (v : ℤ) (width : ℕ) : Store × Bool × String :=
  (s, validate_init_value_int mode v width)

end LFSR_Math

namespace LFSR_Math

/-- `s'` extends `s`: at least as long, agreeing on all old ids. -/
def StoreExt (s s' : Store) : Prop :=
  s.length ≤ s'.length ∧ ∀ k, k < s.length → s'.geta k = s.geta k

theorem StoreExt.rfl (s : Store) : StoreExt s s :=
  ⟨le_refl _, fun _ _ => Eq.refl _⟩

theorem StoreExt.trans {s1 s2 s3 : Store} (h12 : StoreExt s1 s2)
    (h23 : StoreExt s2 s3) : StoreExt s1 s3 := by
  refine ⟨le_trans h12.1 h23.1, fun k hk => ?_⟩
  rw [h23.2 k (lt_of_lt_of_le hk h12.1), h12.2 k hk]

theorem StoreExt.alloc (s : Store) (a : Arr) : StoreExt s (s ++ [a]) := by
  constructor
  · simp
  · intro k hk
    show (s ++ [a]).getD k _ = s.getD k _
    rw [List.getD_eq_getElem?_getD, List.getD_eq_getElem?_getD,
      List.getElem?_append, if_pos hk]

theorem StoreExt.write {s s' : Store} (h : StoreExt s s') {id : ℕ}
    (hid : s.length ≤ id) (a : Arr) : StoreExt s (s'.write id a) := by
  constructor
  · rw [show (Store.write s' id a).length = s'.length from
      List.length_set s' id a]
    exact h.1
  · intro k hk
    have hne : id ≠ k := by omega
    show (s'.set id a).getD k _ = _
    rw [List.getD_eq_getElem?_getD, List.getElem?_set_ne hne,
      ← List.getD_eq_getElem?_getD]
    exact h.2 k hk

/-- Allocating a fresh array and reducing it in place extends the store. -/
theorem StoreExt.alloc_gf2 {s0 s : Store} (h : StoreExt s0 s) (a : Arr)
    (width : ℕ) :
    StoreExt s0 (storeMatrixGf2 (s ++ [a]) s.length width) :=
  StoreExt.write (h.trans (StoreExt.alloc s a)) (le_trans h.1 (le_refl _)) _

theorem expStepH_inv {s0 : Store} (pwr width : ℕ) {st : Store × ℕ × ℕ}
    (i : ℕ) (h : StoreExt s0 st.1) (hr : s0.length ≤ st.2.1) :
    StoreExt s0 (expStepH pwr width st i).1
      ∧ s0.length ≤ (expStepH pwr width st i).2.1 := by
  unfold expStepH
  by_cases hb : get_int_bit pwr i > 0
  · rw [if_pos hb]
    exact ⟨StoreExt.alloc_gf2 (StoreExt.alloc_gf2 h _ width) _ width, h.1⟩
  · rw [if_neg hb]
    exact ⟨StoreExt.alloc_gf2 h _ width, hr⟩

theorem expFoldH_inv {s0 : Store} (pwr width : ℕ) (L : List ℕ) :
    ∀ st : Store × ℕ × ℕ, StoreExt s0 st.1 → s0.length ≤ st.2.1 →
      StoreExt s0 ((L.foldl (expStepH pwr width) st)).1
        ∧ s0.length ≤ ((L.foldl (expStepH pwr width) st)).2.1 := by
  induction L with
  | nil => exact fun st h hr => ⟨h, hr⟩
  | cons a L ih =>
    intro st h hr
    have hs := expStepH_inv pwr width a h hr
    exact ih _ hs.1 hs.2

theorem matrix_exponentiate_gf2_H_frame (s : Store) (mtxId pwr width : ℕ) :
    StoreExt s (matrix_exponentiate_gf2_H s mtxId pwr width).1
      ∧ s.length ≤ (matrix_exponentiate_gf2_H s mtxId pwr width).2 := by
  have h2 := expFoldH_inv pwr width (List.range width)
    (s ++ [arrIdentity width], s.length, mtxId)
    (StoreExt.alloc s (arrIdentity width)) (le_refl _)
  exact ⟨h2.1, h2.2⟩

theorem setElemFold_ext {s0 : Store} {mtxId : ℕ} (hid : s0.length ≤ mtxId)
    (L : List ℕ) :
    ∀ s : Store, StoreExt s0 s →
      StoreExt s0 (L.foldl
        (fun st i => storeSetElem st mtxId (i + 1) i 1) s) := by
  induction L with
  | nil => exact fun s h => h
  | cons a L ih =>
    intro s h
    exact ih _ (StoreExt.write h hid _)

theorem fast_forward_poly_fibonacci_H_frame (s : Store)
    (polyId initId steps width : ℕ) :
    StoreExt s (fast_forward_poly_fibonacci_H s polyId initId steps width).1
      ∧ s.length ≤
        (fast_forward_poly_fibonacci_H s polyId initId steps width).2 := by
  simp only [fast_forward_poly_fibonacci_H]
  set s1 := s ++ [arrTranspose (s.geta initId)] with hs1
  set s2 := s1 ++ [arrZeros width] with hs2
  set s3 := (List.range (width - 1)).foldl
    (fun st i => storeSetElem st s1.length (i + 1) i 1) s2 with hs3
  set s4 := storeSetRow0 s3 s1.length polyId with hs4
  set r5 := matrix_exponentiate_gf2_H s4 s1.length steps width with hr5
  set s6 := r5.1 ++ [arrMatmul (r5.1.geta r5.2) (r5.1.geta s.length)] with hs6
  set s7 := storeColumnGf2 s6 r5.1.length width 0 with hs7
  have e1 : StoreExt s s1 := StoreExt.alloc _ _
  have e2 : StoreExt s s2 := e1.trans (StoreExt.alloc _ _)
  have e3 : StoreExt s s3 := setElemFold_ext e1.1 _ _ e2
  have e4 : StoreExt s s4 := StoreExt.write e3 e1.1 _
  have e5 := matrix_exponentiate_gf2_H_frame s4 s1.length steps width
  have e5a : StoreExt s r5.1 := e4.trans e5.1
  have e6 : StoreExt s s6 := e5a.trans (StoreExt.alloc _ _)
  have e7 : StoreExt s s7 := StoreExt.write e6 e5a.1 _
  exact ⟨e7.trans (StoreExt.alloc _ _), e7.1⟩

end LFSR_Math

namespace LFSR_Math

theorem fast_forward_poly_wrapper_H_frame (mode : FeedbackModeEnum)
    (s : Store) (polyId initId count width : ℕ) :
    ∀ out, fast_forward_poly_wrapper_H mode s polyId initId count width
        = some out → StoreExt s out.1 := by
  cases mode with
  | Fibonacci =>
    intro out h
    have h2 : fast_forward_poly_fibonacci_H s polyId initId count width
        = out := by
      simpa [fast_forward_poly_wrapper_H] using h
    rw [← h2]
    exact (fast_forward_poly_fibonacci_H_frame s polyId initId count width).1
  | Galois =>
    intro out h
    exact absurd h (by simp [fast_forward_poly_wrapper_H])

theorem subPeriodLoop_H_frame (mode : FeedbackModeEnum)
    (polyId initId width : ℕ) :
    ∀ (L : List ℕ) (s : Store) (out : Store × Bool),
      subPeriodLoop_H mode polyId initId width s L = some out →
      StoreExt s out.1 := by
  intro L
  induction L with
  | nil =>
    intro s out h
    simp only [subPeriodLoop_H] at h
    injection h with h2
    rw [← h2]
    exact StoreExt.rfl s
  | cons d L ih =>
    intro s out h
    cases hw : fast_forward_poly_wrapper_H mode s polyId initId d width with
    | none =>
      simp only [subPeriodLoop_H, hw] at h
      exact absurd h (by simp)
    | some pr =>
      obtain ⟨s1, lastId⟩ := pr
      simp only [subPeriodLoop_H, hw] at h
      have hext : StoreExt s s1 :=
        fast_forward_poly_wrapper_H_frame mode s polyId initId d width
          (s1, lastId) hw
      by_cases heq : arrEqB (s1.geta lastId) (s1.geta initId) = true
      · rw [if_pos heq] at h
        injection h with h2
        rw [← h2]
        exact hext
      · rw [if_neg heq] at h
        exact hext.trans (ih s1 out h)

theorem check_poly_max_length_H_frame (mode : FeedbackModeEnum) (s : Store)
    (polyId initId width : ℕ) (out : Store × Bool)
    (h : check_poly_max_length_H mode s polyId initId width = some out) :
    StoreExt s out.1 := by
  cases hw : fast_forward_poly_wrapper_H mode s polyId initId
      (period width) width with
  | none =>
    simp only [check_poly_max_length_H, hw] at h
    exact absurd h (by simp)
  | some pr =>
    obtain ⟨s1, lastId⟩ := pr
    simp only [check_poly_max_length_H, hw] at h
    have hext : StoreExt s s1 :=
      fast_forward_poly_wrapper_H_frame mode s polyId initId
        (period width) width (s1, lastId) hw
    by_cases h1 : arrEqB (s1.geta lastId) (s1.geta initId) = true
    · rw [if_neg (not_not_intro h1)] at h
      by_cases h2 : is_mersenne_prime (period width) = true
      · rw [if_pos h2] at h
        injection h with h3
        rw [← h3]
        exact hext
      · rw [if_neg h2] at h
        exact hext.trans
          (subPeriodLoop_H_frame mode polyId initId width _ s1 out h)
    · rw [if_pos h1] at h
      injection h with h3
      rw [← h3]
      exact hext

end LFSR_Math

open LFSR_Math in
/-- **C9.** In the store-passing embedding, `matrix_exponentiate_gf2`,
`fast_forward_poly_fibonacci` and `check_poly_max_length` leave every
previously-allocated array (in particular the caller's polynomial,
initial-state and base-matrix arrays) unchanged, and the array returned
by the first two is freshly allocated (its id is outside the caller's
store); `validate_poly_numpy` and `validate_init_value_int` return the
store they were given. -/
theorem C9_frame_inputs_unchanged (s : Store)
    (mtxId polyId initId pwr steps width : ℕ) (mode : FeedbackModeEnum)
    (v : ℤ) :
    (∀ k, k < s.length →
      ((matrix_exponentiate_gf2_H s mtxId pwr width).1).geta k = s.geta k)
    ∧ s.length ≤ (matrix_exponentiate_gf2_H s mtxId pwr width).2
    ∧ (∀ k, k < s.length →
      ((fast_forward_poly_fibonacci_H s polyId initId steps width).1).geta k
        = s.geta k)
    ∧ s.length ≤ (fast_forward_poly_fibonacci_H s polyId initId steps width).2
    ∧ (∀ out, check_poly_max_length_H mode s polyId initId width = some out →
        ∀ k, k < s.length → out.1.geta k = s.geta k)
    ∧ (validate_poly_numpy_H s polyId width).1 = s
    ∧ (validate_init_value_int_H s mode v width).1 = s := by
  refine ⟨(matrix_exponentiate_gf2_H_frame s mtxId pwr width).1.2,
    (matrix_exponentiate_gf2_H_frame s mtxId pwr width).2,
    (fast_forward_poly_fibonacci_H_frame s polyId initId steps width).1.2,
    (fast_forward_poly_fibonacci_H_frame s polyId initId steps width).2,
    ?_, rfl, rfl⟩
  intro out h k hk
  exact (check_poly_max_length_H_frame mode s polyId initId width out h).2 k hk

open LFSR_Math in
/-- Witness for C9: a one-array store; the array at id 0 is unchanged by
an exponentiation run that uses it as the base matrix. -/
theorem C9_frame_inputs_unchanged_witness :
    0 < ([(⟨1, 3, fun _ _ => 1⟩ : Arr)] : Store).length
    ∧ Store.geta (matrix_exponentiate_gf2_H
          [(⟨1, 3, fun _ _ => 1⟩ : Arr)] 0 5 3).1 0
        = Store.geta [(⟨1, 3, fun _ _ => 1⟩ : Arr)] 0 :=
  ⟨by norm_num,
    (C9_frame_inputs_unchanged [(⟨1, 3, fun _ _ => 1⟩ : Arr)] 0 0 0 5 5 3
      FeedbackModeEnum.Fibonacci 0).1 0 (by norm_num)⟩
